import Mathlib

/-!
Shallow embedding of `tools/generate_release_notes_index.py`.

The tool scans a directory of release-note files, groups them by minor
version, resolves display titles and renders templates.  Pure string and
path manipulations are translated directly; the filesystem is an explicit
record of functions, and the external libraries (`yaml.safe_load`, the
jinja2 rendering itself) are abstract parameters.  Python exceptions are
modelled with `Except String`; a `.error` value marks a raised exception.

Digits are modelled as ASCII `0`-`9` (the stems handled by the tool are
ASCII version numbers).  The four anchored regular expressions
`(\d+)\.\d+\.\d+`, `\d+\.(\d+)\.\d+`, `\d+\.\d+\.(\d+)` and
`(\d+\.\d+)\.\d+` used with `re.match` all succeed on exactly the same
strings and, because a greedy `\d+` followed by a literal dot can only
match the maximal digit run, their groups are the first, second and third
maximal digit runs; `matchMMP` computes all of them in one pass.
-/

/-- Maximal run of ASCII digits at the head of a character list, together
with the remainder (the behaviour of a greedy `\d+`). -/
def takeDigits : List Char → List Char × List Char
  | [] => ([], [])
  | c :: rest =>
    if c.isDigit then
      ((takeDigits rest).1.cons c, (takeDigits rest).2)
    else ([], c :: rest)

/-- Anchored match of `\d+\.\d+\.\d+` at the head of a stem, returning the
three digit-run groups captured by the version regular expressions of the
source, or `none` when `re.match` would return `None`. -/
def matchMMP (l : List Char) : Option (List Char × List Char × List Char) :=
  if (takeDigits l).1 = [] then none
  else
    match (takeDigits l).2 with
    | [] => none
    | d1 :: r2 =>
      if d1 = '.' then
        if (takeDigits r2).1 = [] then none
        else
          match (takeDigits r2).2 with
          | [] => none
          | d2 :: r4 =>
            if d2 = '.' then
              if (takeDigits r4).1 = [] then none
              else some ((takeDigits l).1, (takeDigits r2).1, (takeDigits r4).1)
            else none
      else none

/-- Value of `int` on a run of ASCII digits. -/
def digitsToNat (l : List Char) : Nat :=
  l.foldl (fun a c => a * 10 + (c.toNat - 48)) 0

/-- Head test for the regular expression fragment `rc\d+`. -/
def headRc : List Char → Bool
  | c1 :: c2 :: d :: _ => c1 == 'r' && c2 == 'c' && d.isDigit
  | _ => false

/-- Head test for the regular expression fragment `\.post\d+`. -/
def headPost : List Char → Bool
  | c1 :: c2 :: c3 :: c4 :: c5 :: d :: _ =>
    c1 == '.' && c2 == 'p' && c3 == 'o' && c4 == 's' && c5 == 't' && d.isDigit
  | _ => false

/-- Anchored match of `.*rc\d+` via `re.match`: an occurrence of `rc`
followed by a digit, with no newline before it (`.` does not match a
newline). -/
def rcScan : List Char → Bool
  | [] => false
  | c :: rest =>
    if headRc (c :: rest) then true
    else if c == '\n' then false
    else rcScan rest

/-- Anchored match of `.*\.post\d+` via `re.match`. -/
def postScan : List Char → Bool
  | [] => false
  | c :: rest =>
    if headPost (c :: rest) then true
    else if c == '\n' then false
    else postScan rest

/-- Translation of `map_post_version_sort_to_number`. -/
def map_post_version_sort_to_number (stem : String) : Nat :=
  if rcScan stem.data then 0
  else if postScan stem.data then 2
  else 1

/-- The `(major, minor, patch, post_rank)` quadruple extracted from a stem
by the four regular expressions of `index_func`, or `none` when the
anchored match fails (Python raises `AttributeError` on `.group`). -/
def extractVersionMeta (stem : String) : Option (Nat × Nat × Nat × Nat) :=
  match matchMMP stem.data with
  | none => none
  | some (a, b, c) =>
    some (digitsToNat a, digitsToNat b, digitsToNat c,
          map_post_version_sort_to_number stem)

/-- Group 1 of `MAJOR_MINOR_VERSION.match(stem)`: the string
`major.minor`, or `none` when the match fails. -/
def majorMinorKey (stem : String) : Option String :=
  match matchMMP stem.data with
  | none => none
  | some (a, b, _) => some (String.mk (a ++ '.' :: b))

/-- Modelled from the spec: a stem "contains a major.minor.patch numeric
substring" when the pattern matches at some position of the stem. -/
def containsMMPsub (s : String) : Bool :=
  s.data.tails.any (fun t => (matchMMP t).isSome)

/-- Python `str.startswith`. -/
def pyStartsWith (s pre2 : String) : Bool :=
  List.isPrefixOf pre2.data s.data

/-- Python `str.endswith`. -/
def pyEndsWith (s suf : String) : Bool :=
  List.isSuffixOf suf.data s.data

/-- First index at which `pat` occurs in the list (Python `str.find`,
with `none` for `-1`). -/
def findIdxSub (pat : List Char) : List Char → Option Nat
  | [] => if List.isPrefixOf pat ([] : List Char) then some 0 else none
  | c :: rest =>
    if List.isPrefixOf pat (c :: rest) then some 0
    else (findIdxSub pat rest).map (· + 1)

/-- Python substring membership `pat in s`. -/
def pyIn (pat s : String) : Bool :=
  (findIdxSub pat.data s.data).isSome

/-- Split on occurrences of a single character (used for `'.'` and `'/'`
component splitting); `acc` is the reversed current field. -/
def charSplitAux (sep : Char) : List Char → List Char → List (List Char)
  | [], acc => [acc.reverse]
  | c :: rest, acc =>
    if c == sep then acc.reverse :: charSplitAux sep rest []
    else charSplitAux sep rest (c :: acc)

/-- Fuelled scanner for Python `str.split(sep)` with a non-empty
separator: non-overlapping leftmost occurrences.  The fuel is at least
the length of the list, which is enough for every step to consume at
least one character. -/
def subSplitAux (sep : List Char) : Nat → List Char → List Char → List (List Char)
  | _, [], acc => [acc.reverse]
  | 0, l, acc => [acc.reverse ++ l]
  | fuel + 1, c :: rest, acc =>
    if List.isPrefixOf sep (c :: rest) then
      acc.reverse :: subSplitAux sep fuel (List.drop sep.length (c :: rest)) []
    else subSplitAux sep fuel rest (c :: acc)

/-- Python `s.split(sep)` for a non-empty separator. -/
def pySplit (s sep : String) : List String :=
  (subSplitAux sep.data (s.data.length + 1) s.data []).map String.mk

/-- Fuelled scanner for Python `str.replace(pat, rep)` with a non-empty
pattern: non-overlapping leftmost occurrences. -/
def subReplaceAux (pat rep : List Char) : Nat → List Char → List Char
  | _, [] => []
  | 0, l => l
  | fuel + 1, c :: rest =>
    if List.isPrefixOf pat (c :: rest) then
      rep ++ subReplaceAux pat rep fuel (List.drop pat.length (c :: rest))
    else c :: subReplaceAux pat rep fuel rest

/-- Python `s.replace(pat, rep)` for a non-empty pattern. -/
def pyReplace (s pat rep : String) : String :=
  String.mk (subReplaceAux pat.data rep.data (s.data.length + 1) s.data)

/-- The single-quote character, `chr(39)`. -/
def squoteS : String := String.singleton (Char.ofNat 39)

/-- The quote stripping `title.replace(quote, "")` for both quote kinds. -/
def stripQuotes (s : String) : String :=
  pyReplace (pyReplace s "\"" "") squoteS ""

/-- Index of the last occurrence of a character (Python `str.rfind`). -/
def rfindCharAux (ch : Char) : List Char → Nat → Option Nat → Option Nat
  | [], _, best => best
  | c :: rest, i, best =>
    rfindCharAux ch rest (i + 1) (if c == ch then some i else best)

/-- `pathlib.PurePath.stem`: the final component without its last suffix
(`name[:i]` for the last dot index `i` when `0 < i < len(name) - 1`). -/
def stemOf (name : String) : String :=
  match rfindCharAux '.' name.data 0 none with
  | some i =>
    if 0 < i ∧ i < name.data.length - 1 then String.mk (name.data.take i)
    else name
  | none => name

/-- `pathlib.PurePath.suffixes`: empty for a name ending in a dot,
otherwise the dot-fields of the name after stripping leading dots,
skipping the first field. -/
def suffixesOf (name : String) : List String :=
  if pyEndsWith name "." then []
  else
    ((charSplitAux '.' (name.data.dropWhile (· == '.')) []).drop 1).map
      (fun l => String.mk ('.' :: l))

/-- `name[:name.find(".md") + 3]`: Python `find` returns `-1` when the
pattern is absent, so the slice is then `name[:2]`. -/
def truncAtMd (name : String) : String :=
  match findIdxSub ".md".data name.data with
  | some i => String.mk (name.data.take (i + 3))
  | none => String.mk (name.data.take 2)

/-- A POSIX `pathlib.PurePath`: an absolute flag and the component list
(`.` and empty components are dropped at parse time, `..` is kept). -/
structure PPath where
  absolute : Bool
  parts : List String
deriving DecidableEq

/-- Parse a path string the way `pathlib` does. -/
def parsePath (s : String) : PPath :=
  ⟨pyStartsWith s "/",
   ((charSplitAux '/' s.data []).map String.mk).filter
     (fun c => !(c == "" || c == "."))⟩

/-- `str()` of a `PurePosixPath`. -/
def strOfP (p : PPath) : String :=
  if p.parts = [] then (if p.absolute then "/" else ".")
  else (if p.absolute then "/" else "") ++ String.intercalate "/" p.parts

/-- The `/` operator on paths: an absolute right operand replaces the
left one, otherwise components are appended (no `..` resolution). -/
def pjoin (p q : PPath) : PPath :=
  if q.absolute then q else ⟨p.absolute, p.parts ++ q.parts⟩

/-- `p / arg` for a string argument, as in `output_path / path`. -/
def pjoinArg (p : PPath) (s : String) : PPath :=
  pjoin p (parsePath s)

/-- A child path as produced by `Path.iterdir`, which appends the entry
name as one component without re-parsing it. -/
def childPath (p : PPath) (name : String) : PPath :=
  ⟨p.absolute, p.parts ++ [name]⟩

/-- `p.relative_to(root)`: the components of `p` past `root`, or `none`
when `root` is not a component-wise ancestor (Python raises
`ValueError`). -/
def relativeParts (root p : PPath) : Option (List String) :=
  if root.absolute == p.absolute && List.isPrefixOf root.parts p.parts then
    some (p.parts.drop root.parts.length)
  else none

/-- `str()` of the relative path made of the given components. -/
def strOfRel (parts : List String) : String :=
  if parts = [] then "." else String.intercalate "/" parts

/-- Modelled from the spec: textual resolution of a component list, in
which a `..` component removes the component before it (and is dropped at
the root). -/
def resolveParts (l : List String) : List String :=
  l.foldl (fun acc c => if c = ".." then acc.dropLast else acc ++ [c]) []

/-- Modelled from the spec: an (absolute) path textually resolves outside
the output root when the resolved root components are not an initial
segment of its resolved components. -/
def textuallyOutside (root p : PPath) : Bool :=
  !(List.isPrefixOf (resolveParts root.parts) (resolveParts p.parts))

/-- POSIX `os.path.join` for the two-argument form used by the source. -/
def osJoin (a b : String) : String :=
  if pyStartsWith b "/" then b
  else if a = "" then b
  else if pyEndsWith a "/" then a ++ b
  else a ++ "/" ++ b

/-- The filesystem, as consulted by the tool: existence tests, file
reads and directory listings (listing yields entry names). -/
structure FS where
  exists_ : String → Bool
  read : String → String
  listdir : String → List String

/-- One entry of the grouped index built by `index_func`. -/
structure VersionRecord where
  major_version_number : Nat
  minor_version_number : Nat
  patch_version_number : Nat
  post_version_sort : Nat
  stem : String
  path : String
deriving DecidableEq

/-- First-match association-list lookup (Python `dict` access for the
small literal dictionaries of the source, which have distinct keys). -/
def lookupAssoc {α : Type} : List (String × α) → String → Option α
  | [], _ => none
  | (k2, v) :: rest, k => if k2 = k then some v else lookupAssoc rest k

/-- The hardcoded title override table of `minor_release_get_title`. -/
def HARD_CODED_RELEASE_NOTE_TITLE : List (String × String) :=
  [("1.19", "1.19 Fantastic Donkeys"), ("1.13", "1.13 Donkerine")]

/-- `os.path.join(output_path / path, version + ".0.md")`. -/
def titleFilePath (outputPath : PPath) (path version : String) : String :=
  osJoin (strOfP (pjoinArg outputPath path)) (version ++ ".0.md")

/-- Translation of `minor_release_get_title`.  `yamlLoad` is the external
`yaml.safe_load` capability, abstracted as a parameter returning the
parsed key-value mapping (with `none` for a document on which the load,
or the subsequent dictionary indexing, cannot produce a string entry).
Python exceptions (`IndexError` on the split lookups, `KeyError` on the
missing title) are `.error` values. -/
def minor_release_get_title (fs : FS)
    (yamlLoad : String → Option (List (String × String)))
    (outputPath : PPath) (path version : String) : Except String String :=
  match lookupAssoc HARD_CODED_RELEASE_NOTE_TITLE version with
  | some t => Except.ok t
  | none =>
    if fs.exists_ (titleFilePath outputPath path version) = false then
      Except.ok version
    else
      match (pySplit (fs.read (titleFilePath outputPath path version)) "---").get? 1 with
      | none => Except.error "IndexError: list index out of range"
      | some content =>
        match yamlLoad content with
        | none => Except.error "yaml load failure"
        | some data =>
          match lookupAssoc data "title" with
          | none => Except.error "KeyError: title"
          | some t =>
            match (pySplit (stripQuotes t) ".0 ").get? 1 with
            | none => Except.error "IndexError: list index out of range"
            | some rem => Except.ok (version ++ " " ++ rem)

/-- Key and record built by `index_func` for one directory entry: the
regular-expression groups are evaluated first (an `AttributeError` when
the anchored match fails), then `i.relative_to(output_path)`. -/
def entryRecord (outputPath p : PPath) (name : String) :
    Except String (String × VersionRecord) :=
  match majorMinorKey (stemOf name) with
  | none => Except.error "AttributeError: NoneType object has no attribute group"
  | some k =>
    match extractVersionMeta (stemOf name) with
    | none => Except.error "AttributeError: NoneType object has no attribute group"
    | some q =>
      match relativeParts outputPath (childPath p name) with
      | none => Except.error "ValueError: path is not relative to the output path"
      | some rel =>
        Except.ok (k, ⟨q.1, q.2.1, q.2.2.1, q.2.2.2, stemOf name, strOfRel rel⟩)

/-- `defaultdict(list)` append: extend an existing group in place, or add
a new key at the end (Python dicts keep insertion order). -/
def groupInsert (m : List (String × List VersionRecord)) (k : String)
    (v : VersionRecord) : List (String × List VersionRecord) :=
  match m with
  | [] => [(k, [v])]
  | (k2, vs) :: rest =>
    if k2 = k then (k2, vs ++ [v]) :: rest
    else (k2, vs) :: groupInsert rest k v

/-- The records stored under a key of the grouped index (empty when the
key is absent). -/
def groupVals (m : List (String × List VersionRecord)) (k : String) :
    List VersionRecord :=
  match lookupAssoc m k with
  | some vs => vs
  | none => []

/-- The entry loop of `index_func` over the listed names. -/
def groupEntriesAux (outputPath p : PPath)
    (acc : List (String × List VersionRecord)) :
    List String → Except String (List (String × List VersionRecord))
  | [] => Except.ok acc
  | n :: rest =>
    match entryRecord outputPath p n with
    | Except.error e => Except.error e
    | Except.ok (k, r) => groupEntriesAux outputPath p (groupInsert acc k r) rest

/-- Translation of `index_func`: join the argument onto the output root,
check the string prefix, check existence, then list and group. -/
def index_func (fs : FS) (outputPath : PPath) (arg : String) :
    Except String (List (String × List VersionRecord)) :=
  if pyStartsWith (strOfP (pjoinArg outputPath arg)) (strOfP outputPath) = false then
    Except.error "path may not escape the output path"
  else if fs.exists_ (strOfP (pjoinArg outputPath arg)) = false then
    Except.error ("cannot index: " ++ strOfP (pjoinArg outputPath arg) ++ " does not exist")
  else
    groupEntriesAux outputPath (pjoinArg outputPath arg) []
      (fs.listdir (strOfP (pjoinArg outputPath arg)))

/-- The selection test of the template loop, as a total predicate (the
code raises instead of answering when the entry has no suffixes). -/
def selectedTemplate (name : String) : Bool :=
  (match suffixesOf name with
   | s :: _ => s == ".md"
   | [] => false) && !(pyStartsWith name ".")

/-- The template loop: on each entry `tpl.suffixes[0]` is evaluated first
(an `IndexError` for an entry without suffixes), then the hidden-name
test; a selected entry writes the output file named by `truncAtMd`.
Returns the written output names in order and the raised error, if any. -/
def renderAux (acc : List String) : List String → List String × Option String
  | [] => (acc.reverse, none)
  | n :: rest =>
    match suffixesOf n with
    | [] => (acc.reverse, some "IndexError: list index out of range")
    | s :: _ =>
      if s == ".md" && !(pyStartsWith n ".") then renderAux (truncAtMd n :: acc) rest
      else renderAux acc rest

/-- Translation of the rendering loop of `render_templates` over the
entries of the templates directory. -/
def render_templates (entries : List String) : List String × Option String :=
  renderAux [] entries

/-- Modelled from the spec: "the portion of the title following the first
occurrence" of a marker. -/
def specPortionAfterFirst (s marker : String) : String :=
  match findIdxSub marker.data s.data with
  | some i => String.mk (s.data.drop (i + marker.data.length))
  | none => s

/-- Modelled from the spec: a stem "starts with a major.minor.patch
numeric substring", i.e. it decomposes as three non-empty digit runs
separated by dots, followed by anything. -/
def StartsWithMMP (s : String) : Prop :=
  ∃ a b c r, s.data = a ++ '.' :: (b ++ '.' :: (c ++ r)) ∧
    a ≠ [] ∧ b ≠ [] ∧ c ≠ [] ∧
    (∀ ch ∈ a, ch.isDigit = true) ∧ (∀ ch ∈ b, ch.isDigit = true) ∧
    (∀ ch ∈ c, ch.isDigit = true)

/-- Whether an `Except` computation finished without raising. -/
def isOkE {α : Type} : Except String α → Bool
  | Except.ok _ => true
  | Except.error _ => false

/-- The record built for an entry, when no exception is raised. -/
def entryRec? (outputPath p : PPath) (n : String) : Option VersionRecord :=
  match entryRecord outputPath p n with
  | Except.ok (_, r) => some r
  | Except.error _ => none

/-- A filesystem on which every existence test fails: any read would be
preceded by a failing existence check. -/
def probeFS : FS := ⟨fun _ => false, fun _ => "", fun _ => []⟩

/-- A filesystem on which every file exists and reads as a well-formed
release-note document whose derived title differs from every override. -/
def garbageFS : FS :=
  ⟨fun _ => true, fun _ => "---FMG---tail", fun _ => []⟩

/-- A filesystem whose single document carries a title with two
occurrences of the `".0 "` marker. -/
def c5cexFS : FS := ⟨fun _ => true, fun _ => "---FM2---tail", fun _ => []⟩

/-- A filesystem whose single document carries the spec's example
title. -/
def c5witFS : FS := ⟨fun _ => true, fun _ => "---FMW---tail", fun _ => []⟩

/-- Concrete stand-in for `yaml.safe_load`, mapping the front-matter
blocks of the fixture documents to their parsed key-value data. -/
def cYaml (s : String) : Option (List (String × String)) :=
  if s = "FM2" then some [("title", "1.27.0 Rel 2.0 Xyz")]
  else if s = "FMW" then some [("title", "1.27.0 Fantastic Aardvark")]
  else if s = "FMG" then some [("title", "1.19.0 Different Name")]
  else none

/-- A directory of three release notes for two minor versions. -/
def c6FS : FS :=
  ⟨fun _ => true, fun _ => "",
   fun _ => ["1.27.0.md", "1.27.1.md", "1.28.0.md"]⟩

theorem takeDigits_eq_append (l : List Char) :
    l = (takeDigits l).1 ++ (takeDigits l).2 := by
  induction l with
  | nil => rfl
  | cons c rest ih =>
    by_cases h : c.isDigit
    · simp [takeDigits, h]
      exact ih
    · simp [takeDigits, h]

theorem takeDigits_fst_digits (l : List Char) :
    ∀ ch ∈ (takeDigits l).1, ch.isDigit = true := by
  induction l with
  | nil => intro ch h; simp [takeDigits] at h
  | cons c rest ih =>
    by_cases h : c.isDigit
    · intro ch hm
      simp [takeDigits, h] at hm
      rcases hm with h1 | h2
      · rwa [h1]
      · exact ih ch h2
    · intro ch hm; simp [takeDigits, h] at hm

theorem takeDigits_append (a t : List Char)
    (ha : ∀ ch ∈ a, ch.isDigit = true)
    (ht : ∀ ch cs, t = ch :: cs → ch.isDigit = false) :
    takeDigits (a ++ t) = (a, t) := by
  induction a with
  | nil =>
    cases t with
    | nil => rfl
    | cons ch cs => simp [takeDigits, ht ch cs rfl]
  | cons x xs ih =>
    have hx : x.isDigit = true := ha x (by simp)
    have ihh := ih (fun ch hm => ha ch (by simp [hm]))
    simp [takeDigits, hx, ihh]

theorem takeDigits_fst_ne_nil (c : Char) (l : List Char)
    (h : c.isDigit = true) : (takeDigits (c :: l)).1 ≠ [] := by
  simp [takeDigits, h]

theorem matchMMP_concat (a b c r : List Char)
    (hane : a ≠ []) (hbne : b ≠ []) (hcne : c ≠ [])
    (hda : ∀ ch ∈ a, ch.isDigit = true)
    (hdb : ∀ ch ∈ b, ch.isDigit = true)
    (hdc : ∀ ch ∈ c, ch.isDigit = true)
    (hr : ∀ ch cs, r = ch :: cs → ch.isDigit = false) :
    matchMMP (a ++ '.' :: (b ++ '.' :: (c ++ r))) = some (a, b, c) := by
  have h1 : takeDigits (a ++ '.' :: (b ++ '.' :: (c ++ r))) =
      (a, '.' :: (b ++ '.' :: (c ++ r))) :=
    takeDigits_append a _ hda (fun ch cs h => by
      injection h with h1 h2; rw [← h1]; decide)
  have h2 : takeDigits (b ++ '.' :: (c ++ r)) = (b, '.' :: (c ++ r)) :=
    takeDigits_append b _ hdb (fun ch cs h => by
      injection h with h1 h2; rw [← h1]; decide)
  have h3 : takeDigits (c ++ r) = (c, r) :=
    takeDigits_append c r hdc hr
  simp only [matchMMP, h1, h2, h3, hane, hbne, hcne, if_false]
  simp [hane, hbne, hcne]

theorem matchMMP_isSome_of_decomp (a b c r : List Char)
    (hane : a ≠ []) (hbne : b ≠ []) (hcne : c ≠ [])
    (hda : ∀ ch ∈ a, ch.isDigit = true)
    (hdb : ∀ ch ∈ b, ch.isDigit = true)
    (hdc : ∀ ch ∈ c, ch.isDigit = true) :
    (matchMMP (a ++ '.' :: (b ++ '.' :: (c ++ r)))).isSome = true := by
  have h1 : takeDigits (a ++ '.' :: (b ++ '.' :: (c ++ r))) =
      (a, '.' :: (b ++ '.' :: (c ++ r))) :=
    takeDigits_append a _ hda (fun ch cs h => by
      injection h with h1 h2; rw [← h1]; decide)
  have h2 : takeDigits (b ++ '.' :: (c ++ r)) = (b, '.' :: (c ++ r)) :=
    takeDigits_append b _ hdb (fun ch cs h => by
      injection h with h1 h2; rw [← h1]; decide)
  have h3 : (takeDigits (c ++ r)).1 ≠ [] := by
    cases c with
    | nil => exact absurd rfl hcne
    | cons c0 cs =>
      have hc0 : c0.isDigit = true := hdc c0 (by simp)
      simpa using takeDigits_fst_ne_nil c0 (cs ++ r) hc0
  simp [matchMMP, h1, h2, hane, hbne, h3]

theorem matchMMP_sound (l a b c : List Char)
    (h : matchMMP l = some (a, b, c)) :
    ∃ r, l = a ++ '.' :: (b ++ '.' :: (c ++ r)) ∧ a ≠ [] ∧ b ≠ [] ∧ c ≠ [] ∧
      (∀ ch ∈ a, ch.isDigit = true) ∧ (∀ ch ∈ b, ch.isDigit = true) ∧
      (∀ ch ∈ c, ch.isDigit = true) := by
  unfold matchMMP at h
  repeat' split at h
  any_goals exact Option.noConfusion h
  rename_i hA1 x1 d1 r2 hr1 hd1 hB1 x2 d2 r4 hr3 hd2 hC1
  injection h with h5
  injection h5 with hHA h6
  injection h6 with hHB hHC
  subst hHA hHB hHC
  have e1 := takeDigits_eq_append l
  rw [hr1, hd1] at e1
  have e2 := takeDigits_eq_append r2
  rw [hr3, hd2] at e2
  have e3 := takeDigits_eq_append r4
  refine ⟨(takeDigits r4).2, ?_, hA1, hB1, hC1,
    takeDigits_fst_digits l, takeDigits_fst_digits r2, takeDigits_fst_digits r4⟩
  conv_rhs => rw [← e3]
  conv_rhs => rw [← e2]
  exact e1

/-- C2 counterexample: the stem `v1.2.3` contains a major.minor.patch
numeric substring, yet version-metadata extraction raises, because the
anchored `re.match` only succeeds at the start of the stem. -/
theorem C2_contains_cex :
    containsMMPsub "v1.2.3" = true ∧ extractVersionMeta "v1.2.3" = none := by
  constructor
  · decide
  · rfl

/-- C2 (amended): version-metadata extraction on a stem fails if and only
if the stem does not start with a major.minor.patch numeric substring;
when that pattern is present at the start, a full quadruple is
returned. -/
theorem C2_fails_iff_not_at_start (s : String) :
    extractVersionMeta s = none ↔ ¬ StartsWithMMP s := by
  have hiff : extractVersionMeta s = none ↔ matchMMP s.data = none := by
    unfold extractVersionMeta
    cases h : matchMMP s.data with
    | none => simp
    | some x => rcases x with ⟨a, b, c⟩; simp
  rw [hiff]
  constructor
  · intro hnone hsw
    rcases hsw with ⟨a, b, c, r, hdecomp, hane, hbne, hcne, hda, hdb, hdc⟩
    have := matchMMP_isSome_of_decomp a b c r hane hbne hcne hda hdb hdc
    rw [← hdecomp, hnone] at this
    simp at this
  · intro hnsw
    cases h : matchMMP s.data with
    | none => rfl
    | some x =>
      rcases x with ⟨a, b, c⟩
      rcases matchMMP_sound s.data a b c h with
        ⟨r, hdecomp, hane, hbne, hcne, hda, hdb, hdc⟩
      exact absurd ⟨a, b, c, r, hdecomp, hane, hbne, hcne, hda, hdb, hdc⟩ hnsw

theorem headRc_mem (l : List Char) (h : headRc l = true) : 'r' ∈ l := by
  match l with
  | [] => simp [headRc] at h
  | [c1] => simp [headRc] at h
  | [c1, c2] => simp [headRc] at h
  | c1 :: c2 :: d :: rest =>
    simp [headRc] at h
    obtain ⟨⟨h1, h2⟩, h3⟩ := h
    simp [h1]

theorem headPost_mem (l : List Char) (h : headPost l = true) : 'p' ∈ l := by
  match l with
  | [] => simp [headPost] at h
  | [c1] => simp [headPost] at h
  | [c1, c2] => simp [headPost] at h
  | [c1, c2, c3] => simp [headPost] at h
  | [c1, c2, c3, c4] => simp [headPost] at h
  | [c1, c2, c3, c4, c5] => simp [headPost] at h
  | c1 :: c2 :: c3 :: c4 :: c5 :: d :: rest =>
    simp [headPost] at h
    obtain ⟨⟨⟨⟨⟨h1, h2⟩, h3⟩, h4⟩, h5⟩, h6⟩ := h
    simp [h2]

theorem rcScan_eq_false_of_no_r (l : List Char)
    (h : ∀ ch ∈ l, ch ≠ 'r') : rcScan l = false := by
  induction l with
  | nil => rfl
  | cons c rest ih =>
    have hhr : headRc (c :: rest) = false := by
      cases hh : headRc (c :: rest) with
      | true =>
        rcases headRc_mem _ hh with hmem
        exact absurd rfl (h 'r' hmem)
      | false => rfl
    have ih2 := ih (fun ch hm => h ch (List.mem_cons_of_mem c hm))
    simp only [rcScan, hhr, Bool.false_eq_true, if_false, ih2]
    split <;> rfl

theorem postScan_eq_false_of_no_p (l : List Char)
    (h : ∀ ch ∈ l, ch ≠ 'p') : postScan l = false := by
  induction l with
  | nil => rfl
  | cons c rest ih =>
    have hhr : headPost (c :: rest) = false := by
      cases hh : headPost (c :: rest) with
      | true =>
        rcases headPost_mem _ hh with hmem
        exact absurd rfl (h 'p' hmem)
      | false => rfl
    have ih2 := ih (fun ch hm => h ch (List.mem_cons_of_mem c hm))
    simp only [postScan, hhr, Bool.false_eq_true, if_false, ih2]
    split <;> rfl

theorem rcScan_append (xs : List Char) (d : Char) (ys : List Char)
    (hd : d.isDigit = true) (hnx : ∀ ch ∈ xs, ch ≠ '\n') :
    rcScan (xs ++ 'r' :: 'c' :: d :: ys) = true := by
  induction xs with
  | nil => simp [rcScan, headRc, hd]
  | cons x xs ih =>
    have ih2 := ih (fun ch hm => hnx ch (List.mem_cons_of_mem x hm))
    have hx : (x == '\n') = false := by
      have := hnx x (List.mem_cons_self x xs)
      simp [this]
    rw [List.cons_append]
    cases hh : headRc (x :: (xs ++ 'r' :: 'c' :: d :: ys)) with
    | true => simp [rcScan, hh]
    | false => simp [rcScan, hh, hx, ih2]

theorem postScan_append (xs : List Char) (d : Char) (ys : List Char)
    (hd : d.isDigit = true) (hnx : ∀ ch ∈ xs, ch ≠ '\n') :
    postScan (xs ++ '.' :: 'p' :: 'o' :: 's' :: 't' :: d :: ys) = true := by
  induction xs with
  | nil => simp [postScan, headPost, hd]
  | cons x xs ih =>
    have ih2 := ih (fun ch hm => hnx ch (List.mem_cons_of_mem x hm))
    have hx : (x == '\n') = false := by
      have := hnx x (List.mem_cons_self x xs)
      simp [this]
    rw [List.cons_append]
    cases hh : headPost (x :: (xs ++ '.' :: 'p' :: 'o' :: 's' :: 't' :: d :: ys)) with
    | true => simp [postScan, hh]
    | false => simp [postScan, hh, hx, ih2]

theorem ne_of_isDigit (ch t : Char) (hd : ch.isDigit = true)
    (ht : t.isDigit = false) : ch ≠ t := by
  intro he
  subst he
  rw [hd] at ht
  cases ht

theorem matchMMP_concat_nil (a b c : List Char)
    (hane : a ≠ []) (hbne : b ≠ []) (hcne : c ≠ [])
    (hda : ∀ ch ∈ a, ch.isDigit = true)
    (hdb : ∀ ch ∈ b, ch.isDigit = true)
    (hdc : ∀ ch ∈ c, ch.isDigit = true) :
    matchMMP (a ++ '.' :: (b ++ '.' :: c)) = some (a, b, c) := by
  have h := matchMMP_concat a b c [] hane hbne hcne hda hdb hdc
    (fun ch cs hcontra => absurd hcontra (by simp))
  simpa using h

theorem mem_stem_decomp (A B C R : List Char) (ch : Char)
    (hm : ch ∈ A ++ '.' :: (B ++ '.' :: (C ++ R))) :
    ch ∈ A ∨ ch ∈ B ∨ ch ∈ C ∨ ch = '.' ∨ ch ∈ R := by
  rcases List.mem_append.mp hm with h | h
  · exact Or.inl h
  · rcases List.mem_cons.mp h with h | h
    · exact Or.inr (Or.inr (Or.inr (Or.inl h)))
    · rcases List.mem_append.mp h with h | h
      · exact Or.inr (Or.inl h)
      · rcases List.mem_cons.mp h with h | h
        · exact Or.inr (Or.inr (Or.inr (Or.inl h)))
        · rcases List.mem_append.mp h with h | h
          · exact Or.inr (Or.inr (Or.inl h))
          · exact Or.inr (Or.inr (Or.inr (Or.inr h)))

/-- C4: for well-formed stems the four regular expressions extract the
numeric components exactly, with rank 1 for a plain `X.Y.Z` stem, rank 2
for `X.Y.Z.postN`, and rank 0 for `X.Y.ZrcN`. -/
theorem C4_wellformed_extraction (X Y Z : Nat) (a b c n : String)
    (hane : a.data ≠ []) (hadig : ∀ ch ∈ a.data, ch.isDigit = true)
    (haval : digitsToNat a.data = X)
    (hbne : b.data ≠ []) (hbdig : ∀ ch ∈ b.data, ch.isDigit = true)
    (hbval : digitsToNat b.data = Y)
    (hcne : c.data ≠ []) (hcdig : ∀ ch ∈ c.data, ch.isDigit = true)
    (hcval : digitsToNat c.data = Z)
    (hnne : n.data ≠ []) (hndig : ∀ ch ∈ n.data, ch.isDigit = true) :
    extractVersionMeta (a ++ "." ++ b ++ "." ++ c) = some (X, Y, Z, 1) ∧
    extractVersionMeta (a ++ "." ++ b ++ "." ++ c ++ ".post" ++ n) =
      some (X, Y, Z, 2) ∧
    extractVersionMeta (a ++ "." ++ b ++ "." ++ c ++ "rc" ++ n) =
      some (X, Y, Z, 0) := by
  obtain ⟨d, n2, hsplit⟩ := List.exists_cons_of_ne_nil hnne
  have hddig : d.isDigit = true := hndig d (by rw [hsplit]; simp)
  have hdot : ("." : String).data = ['.'] := rfl
  have hpost : (".post" : String).data = ['.', 'p', 'o', 's', 't'] := rfl
  have hrc : ("rc" : String).data = ['r', 'c'] := rfl
  have hs1 : (a ++ "." ++ b ++ "." ++ c).data =
      a.data ++ '.' :: (b.data ++ '.' :: c.data) := by
    simp [String.data_append, hdot]
  have hs2 : (a ++ "." ++ b ++ "." ++ c ++ ".post" ++ n).data =
      a.data ++ '.' :: (b.data ++ '.' ::
        (c.data ++ '.' :: 'p' :: 'o' :: 's' :: 't' :: n.data)) := by
    simp [String.data_append, hdot, hpost]
  have hs3 : (a ++ "." ++ b ++ "." ++ c ++ "rc" ++ n).data =
      a.data ++ '.' :: (b.data ++ '.' :: (c.data ++ 'r' :: 'c' :: n.data)) := by
    simp [String.data_append, hdot, hrc]
  have hm1 : matchMMP (a ++ "." ++ b ++ "." ++ c).data =
      some (a.data, b.data, c.data) := by
    rw [hs1]
    exact matchMMP_concat_nil a.data b.data c.data hane hbne hcne hadig hbdig hcdig
  have hm2 : matchMMP (a ++ "." ++ b ++ "." ++ c ++ ".post" ++ n).data =
      some (a.data, b.data, c.data) := by
    rw [hs2]
    exact matchMMP_concat a.data b.data c.data _ hane hbne hcne hadig hbdig hcdig
      (fun ch cs hcontra => by injection hcontra with h1 h2; rw [← h1]; decide)
  have hm3 : matchMMP (a ++ "." ++ b ++ "." ++ c ++ "rc" ++ n).data =
      some (a.data, b.data, c.data) := by
    rw [hs3]
    exact matchMMP_concat a.data b.data c.data _ hane hbne hcne hadig hbdig hcdig
      (fun ch cs hcontra => by injection hcontra with h1 h2; rw [← h1]; decide)
  have hclass1 : ∀ ch ∈ (a ++ "." ++ b ++ "." ++ c).data,
      ch.isDigit = true ∨ ch = '.' := by
    intro ch hm
    rw [hs1] at hm
    have hm2b : ch ∈ a.data ++ '.' :: (b.data ++ '.' :: (c.data ++ [])) := by
      simpa using hm
    rcases mem_stem_decomp _ _ _ _ ch hm2b with h | h | h | h | h
    · exact Or.inl (hadig ch h)
    · exact Or.inl (hbdig ch h)
    · exact Or.inl (hcdig ch h)
    · exact Or.inr h
    · exact absurd h (List.not_mem_nil ch)
  have hxs : ∀ ch ∈ a.data ++ '.' :: (b.data ++ '.' :: c.data), ch ≠ '\n' := by
    intro ch hm
    have hm' : ch ∈ (a ++ "." ++ b ++ "." ++ c).data := by rw [hs1]; exact hm
    rcases hclass1 ch hm' with h | h
    · exact ne_of_isDigit ch '\n' h (by decide)
    · subst h; decide
  have hclass2 : ∀ ch ∈ (a ++ "." ++ b ++ "." ++ c ++ ".post" ++ n).data,
      ch ≠ 'r' := by
    intro ch hm
    rw [hs2] at hm
    rcases mem_stem_decomp _ _ _ _ ch hm with h | h | h | h | h
    · exact ne_of_isDigit ch 'r' (hadig ch h) (by decide)
    · exact ne_of_isDigit ch 'r' (hbdig ch h) (by decide)
    · exact ne_of_isDigit ch 'r' (hcdig ch h) (by decide)
    · subst h; decide
    · rcases List.mem_cons.mp h with h | h
      · subst h; decide
      rcases List.mem_cons.mp h with h | h
      · subst h; decide
      rcases List.mem_cons.mp h with h | h
      · subst h; decide
      rcases List.mem_cons.mp h with h | h
      · subst h; decide
      rcases List.mem_cons.mp h with h | h
      · subst h; decide
      · exact ne_of_isDigit ch 'r' (hndig ch h) (by decide)
  have hr1 : map_post_version_sort_to_number (a ++ "." ++ b ++ "." ++ c) = 1 := by
    have hnor : rcScan (a ++ "." ++ b ++ "." ++ c).data = false := by
      apply rcScan_eq_false_of_no_r
      intro ch hm
      rcases hclass1 ch hm with h | h
      · exact ne_of_isDigit ch 'r' h (by decide)
      · subst h; decide
    have hnop : postScan (a ++ "." ++ b ++ "." ++ c).data = false := by
      apply postScan_eq_false_of_no_p
      intro ch hm
      rcases hclass1 ch hm with h | h
      · exact ne_of_isDigit ch 'p' h (by decide)
      · subst h; decide
    unfold map_post_version_sort_to_number
    rw [hnor, hnop]
    simp
  have hr2 : map_post_version_sort_to_number
      (a ++ "." ++ b ++ "." ++ c ++ ".post" ++ n) = 2 := by
    have hnor : rcScan (a ++ "." ++ b ++ "." ++ c ++ ".post" ++ n).data = false :=
      rcScan_eq_false_of_no_r _ hclass2
    have hshape : (a ++ "." ++ b ++ "." ++ c ++ ".post" ++ n).data =
        (a.data ++ '.' :: (b.data ++ '.' :: c.data)) ++
          '.' :: 'p' :: 'o' :: 's' :: 't' :: (d :: n2) := by
      rw [hs2, hsplit]; simp
    have hpos : postScan (a ++ "." ++ b ++ "." ++ c ++ ".post" ++ n).data = true := by
      rw [hshape]
      exact postScan_append _ d n2 hddig hxs
    unfold map_post_version_sort_to_number
    rw [hnor, hpos]
    simp
  have hr3 : map_post_version_sort_to_number
      (a ++ "." ++ b ++ "." ++ c ++ "rc" ++ n) = 0 := by
    have hshape : (a ++ "." ++ b ++ "." ++ c ++ "rc" ++ n).data =
        (a.data ++ '.' :: (b.data ++ '.' :: c.data)) ++ 'r' :: 'c' :: (d :: n2) := by
      rw [hs3, hsplit]; simp
    have hrcs : rcScan (a ++ "." ++ b ++ "." ++ c ++ "rc" ++ n).data = true := by
      rw [hshape]
      exact rcScan_append _ d n2 hddig hxs
    unfold map_post_version_sort_to_number
    rw [hrcs]
    simp
  refine ⟨?_, ?_, ?_⟩
  · unfold extractVersionMeta
    rw [hm1]
    simp only [haval, hbval, hcval, hr1]
  · unfold extractVersionMeta
    rw [hm2]
    simp only [haval, hbval, hcval, hr2]
  · unfold extractVersionMeta
    rw [hm3]
    simp only [haval, hbval, hcval, hr3]

/-- C4 witness: the theorem applied to the concrete stems 1.27.4,
1.27.4.post1 and 1.27.4rc1. -/
theorem C4_witness :
    extractVersionMeta "1.27.4" = some (1, 27, 4, 1) ∧
    extractVersionMeta "1.27.4.post1" = some (1, 27, 4, 2) ∧
    extractVersionMeta "1.27.4rc1" = some (1, 27, 4, 0) := by
  have h := C4_wellformed_extraction 1 27 4 "1" "27" "4" "1"
    (by decide) (by decide) (by decide) (by decide) (by decide) (by decide)
    (by decide) (by decide) (by decide) (by decide) (by decide)
  simpa using h

/-- C9 counterexample: the stem `a\nrc1.post1` contains both an `rcN`
marker and a `.postN` marker as substrings, yet the sort rank is 1, not
0: the anchored `.*` of both patterns cannot cross the newline, so
neither `re.match` succeeds. -/
theorem C9_newline_cex :
    pyIn "rc1" "a\nrc1.post1" = true ∧
    pyIn ".post1" "a\nrc1.post1" = true ∧
    map_post_version_sort_to_number "a\nrc1.post1" = 1 := by
  refine ⟨?_, ?_, ?_⟩ <;> decide

/-- C9 (amended): `map_post_version_sort_to_number` is total and only
returns 0, 1 or 2; and whenever an `rc`-digit occurrence appears with no
newline before it, the result is 0 — the release-candidate test takes
precedence over the post-release test, whatever else the stem
contains. -/
theorem C9_rc_precedence_total (s : String) :
    (map_post_version_sort_to_number s = 0 ∨
     map_post_version_sort_to_number s = 1 ∨
     map_post_version_sort_to_number s = 2) ∧
    (∀ xs d ys, s.data = xs ++ 'r' :: 'c' :: d :: ys → d.isDigit = true →
      (∀ ch ∈ xs, ch ≠ '\n') → map_post_version_sort_to_number s = 0) := by
  constructor
  · unfold map_post_version_sort_to_number
    split
    · exact Or.inl rfl
    split
    · exact Or.inr (Or.inr rfl)
    · exact Or.inr (Or.inl rfl)
  · intro xs d ys hdecomp hd hnx
    have hrcs : rcScan s.data = true := by
      rw [hdecomp]
      exact rcScan_append xs d ys hd hnx
    unfold map_post_version_sort_to_number
    rw [hrcs]
    simp

/-- C9 witness: the stem `1.2.3rc1.post1` carries both markers and maps
to 0. -/
theorem C9_witness :
    map_post_version_sort_to_number "1.2.3rc1.post1" = 0 :=
  (C9_rc_precedence_total "1.2.3rc1.post1").2 "1.2.3".data '1' ".post1".data
    (by decide) (by decide) (by decide)

/-- C1: the boundary check of `index_func` is only a textual
`str.startswith` on the unresolved joined path, so the argument `..`,
which textually resolves outside the output root `/docs`, passes the
check, and the code then consults the filesystem (the reported error is
the not-found one produced after the `path.exists()` check, not the
boundary-violation error). -/
theorem C1_path_escape_unchecked :
    textuallyOutside (parsePath "/docs") (pjoinArg (parsePath "/docs") "..") = true ∧
    pyStartsWith (strOfP (pjoinArg (parsePath "/docs") ".."))
      (strOfP (parsePath "/docs")) = true ∧
    index_func probeFS (parsePath "/docs") ".." =
      Except.error "cannot index: /docs/.. does not exist" := by
  refine ⟨by decide, by decide, ?_⟩
  rfl

/-- C3: a Version Key present in the override table short-circuits the
title resolver: the override string is returned verbatim, for every
filesystem and yaml loader, so no filesystem access can influence the
result. -/
theorem C3_override_short_circuit (fs : FS)
    (yl : String → Option (List (String × String)))
    (outputPath : PPath) (path version t : String)
    (h : lookupAssoc HARD_CODED_RELEASE_NOTE_TITLE version = some t) :
    minor_release_get_title fs yl outputPath path version = Except.ok t := by
  unfold minor_release_get_title
  rw [h]

/-- C3 witness: on a filesystem where the matching title file exists
with different contents, the override for 1.19 is still returned. -/
theorem C3_witness :
    minor_release_get_title garbageFS cYaml (parsePath "/docs") "rel" "1.19" =
      Except.ok "1.19 Fantastic Donkeys" :=
  C3_override_short_circuit garbageFS cYaml (parsePath "/docs") "rel" "1.19"
    "1.19 Fantastic Donkeys" (by decide)

/-- C7: with no override entry and no `<version>.0.md` file on disk, the
resolver returns the Version Key itself. -/
theorem C7_fallback_version (fs : FS)
    (yl : String → Option (List (String × String)))
    (outputPath : PPath) (path version : String)
    (h1 : lookupAssoc HARD_CODED_RELEASE_NOTE_TITLE version = none)
    (h2 : fs.exists_ (titleFilePath outputPath path version) = false) :
    minor_release_get_title fs yl outputPath path version = Except.ok version := by
  unfold minor_release_get_title
  rw [h1]
  simp [h2]

/-- C7 witness: version 1.27 with an empty filesystem. -/
theorem C7_witness :
    minor_release_get_title probeFS cYaml (parsePath "/docs") "rel" "1.27" =
      Except.ok "1.27" :=
  C7_fallback_version probeFS cYaml (parsePath "/docs") "rel" "1.27"
    (by decide) rfl

/-- C10: the override table holds exactly the two hardcoded entries; the
resolver returns the 1.13 override regardless of the filesystem, and the
lookup is a no-op for every other key but 1.19. -/
theorem C10_override_table :
    HARD_CODED_RELEASE_NOTE_TITLE =
      [("1.19", "1.19 Fantastic Donkeys"), ("1.13", "1.13 Donkerine")] ∧
    (∀ (fs : FS) (yl : String → Option (List (String × String)))
       (outputPath : PPath) (path : String),
      minor_release_get_title fs yl outputPath path "1.13" =
        Except.ok "1.13 Donkerine") ∧
    (∀ v : String, v ≠ "1.19" → v ≠ "1.13" →
      lookupAssoc HARD_CODED_RELEASE_NOTE_TITLE v = none) := by
  refine ⟨rfl, ?_, ?_⟩
  · intro fs yl outputPath path
    unfold minor_release_get_title
    rw [show lookupAssoc HARD_CODED_RELEASE_NOTE_TITLE "1.13" =
      some "1.13 Donkerine" by decide]
  · intro v h19 h13
    have h19s : ("1.19" : String) ≠ v := Ne.symm h19
    have h13s : ("1.13" : String) ≠ v := Ne.symm h13
    simp [HARD_CODED_RELEASE_NOTE_TITLE, lookupAssoc, h19s, h13s]

/-- C10 witness: the 1.13 override on a garbage filesystem, and the
no-op lookup at key 1.20. -/
theorem C10_witness :
    minor_release_get_title garbageFS cYaml (parsePath "/docs") "rel" "1.13" =
      Except.ok "1.13 Donkerine" ∧
    lookupAssoc HARD_CODED_RELEASE_NOTE_TITLE "1.20" = none :=
  ⟨C10_override_table.2.1 garbageFS cYaml (parsePath "/docs") "rel",
   C10_override_table.2.2 "1.20" (by decide) (by decide)⟩

/-- C5 (amended): with no override and an existing title file, the
resolver splits the file on `---`, yaml-parses the block at index 1,
takes the `title` entry, strips quotes, splits on `".0 "` and returns
the element at index 1 of that split — the segment between the first
and second occurrences of the marker — prefixed with the Version Key
and a space; a missing delimiter, missing title field or missing
`".0 "` marker raises instead of falling back. -/
theorem C5_title_derivation (fs : FS)
    (yl : String → Option (List (String × String)))
    (outputPath : PPath) (path version p0 fm : String) (rest : List String)
    (kvs : List (String × String)) (t u0 u1 : String) (us : List String)
    (whole single : String) :
    (lookupAssoc HARD_CODED_RELEASE_NOTE_TITLE version = none →
     fs.exists_ (titleFilePath outputPath path version) = true →
     pySplit (fs.read (titleFilePath outputPath path version)) "---" =
       p0 :: fm :: rest →
     yl fm = some kvs →
     lookupAssoc kvs "title" = some t →
     pySplit (stripQuotes t) ".0 " = u0 :: u1 :: us →
     minor_release_get_title fs yl outputPath path version =
       Except.ok (version ++ " " ++ u1)) ∧
    (lookupAssoc HARD_CODED_RELEASE_NOTE_TITLE version = none →
     fs.exists_ (titleFilePath outputPath path version) = true →
     pySplit (fs.read (titleFilePath outputPath path version)) "---" = [whole] →
     isOkE (minor_release_get_title fs yl outputPath path version) = false) ∧
    (lookupAssoc HARD_CODED_RELEASE_NOTE_TITLE version = none →
     fs.exists_ (titleFilePath outputPath path version) = true →
     pySplit (fs.read (titleFilePath outputPath path version)) "---" =
       p0 :: fm :: rest →
     yl fm = some kvs →
     lookupAssoc kvs "title" = none →
     isOkE (minor_release_get_title fs yl outputPath path version) = false) ∧
    (lookupAssoc HARD_CODED_RELEASE_NOTE_TITLE version = none →
     fs.exists_ (titleFilePath outputPath path version) = true →
     pySplit (fs.read (titleFilePath outputPath path version)) "---" =
       p0 :: fm :: rest →
     yl fm = some kvs →
     lookupAssoc kvs "title" = some t →
     pySplit (stripQuotes t) ".0 " = [single] →
     isOkE (minor_release_get_title fs yl outputPath path version) = false) := by
  refine ⟨?_, ?_, ?_, ?_⟩
  · intro h1 h2 h3 h4 h5 h6
    unfold minor_release_get_title
    rw [h1]
    simp [h2, h3, h4, h5, h6]
  · intro h1 h2 h3
    unfold minor_release_get_title
    rw [h1]
    simp [h2, h3, isOkE]
  · intro h1 h2 h3 h4 h5
    unfold minor_release_get_title
    rw [h1]
    simp [h2, h3, h4, h5, isOkE]
  · intro h1 h2 h3 h4 h5 h6
    unfold minor_release_get_title
    rw [h1]
    simp [h2, h3, h4, h5, h6, isOkE]

/-- C5 witness: the spec's example document with title
`1.27.0 Fantastic Aardvark` resolves to `1.27 Fantastic Aardvark`. -/
theorem C5_witness :
    minor_release_get_title c5witFS cYaml (parsePath "/docs") "rel" "1.27" =
      Except.ok ("1.27" ++ " " ++ "Fantastic Aardvark") :=
  (C5_title_derivation c5witFS cYaml (parsePath "/docs") "rel" "1.27" "" "FMW"
    ["tail"] [("title", "1.27.0 Fantastic Aardvark")] "1.27.0 Fantastic Aardvark"
    "1.27" "Fantastic Aardvark" [] "" "").1
    (by decide) rfl (by decide) (by decide) (by decide) (by decide)

/-- C5 counterexample: for a title holding two occurrences of the
`".0 "` marker, the code returns the segment between the first and the
second occurrence (`split(".0 ")[1]`), not the whole portion following
the first occurrence as the claim states. -/
theorem C5_split_index_cex :
    minor_release_get_title c5cexFS cYaml (parsePath "/docs") "rel" "1.27" =
      Except.ok "1.27 Rel 2" ∧
    stripQuotes "1.27.0 Rel 2.0 Xyz" = "1.27.0 Rel 2.0 Xyz" ∧
    specPortionAfterFirst "1.27.0 Rel 2.0 Xyz" ".0 " = "Rel 2.0 Xyz" ∧
    ("1.27 Rel 2" : String) ≠ "1.27" ++ " " ++ "Rel 2.0 Xyz" := by
  refine ⟨rfl, by decide, by decide, by decide⟩

theorem lookupAssoc_groupInsert_self
    (m : List (String × List VersionRecord)) (k : String) (v : VersionRecord) :
    lookupAssoc (groupInsert m k v) k = some (groupVals m k ++ [v]) := by
  induction m with
  | nil => simp [groupInsert, lookupAssoc, groupVals]
  | cons p rest ih =>
    rcases p with ⟨k2, vs⟩
    by_cases h : k2 = k
    · subst h
      simp [groupInsert, lookupAssoc, groupVals]
    · simp [groupInsert, lookupAssoc, groupVals, h, ih]

theorem lookupAssoc_groupInsert_ne
    (m : List (String × List VersionRecord)) (k : String) (v : VersionRecord)
    (k2 : String) (h : k2 ≠ k) :
    lookupAssoc (groupInsert m k v) k2 = lookupAssoc m k2 := by
  induction m with
  | nil => simp [groupInsert, lookupAssoc, Ne.symm h]
  | cons p rest ih =>
    rcases p with ⟨k3, vs⟩
    by_cases h3 : k3 = k
    · subst h3
      simp [groupInsert, lookupAssoc, Ne.symm h]
    · simp [groupInsert, lookupAssoc, h3, ih]

theorem groupVals_groupInsert_self
    (m : List (String × List VersionRecord)) (k : String) (v : VersionRecord) :
    groupVals (groupInsert m k v) k = groupVals m k ++ [v] := by
  simp [groupVals, lookupAssoc_groupInsert_self]

theorem groupVals_groupInsert_ne
    (m : List (String × List VersionRecord)) (k : String) (v : VersionRecord)
    (k2 : String) (h : k2 ≠ k) :
    groupVals (groupInsert m k v) k2 = groupVals m k2 := by
  simp [groupVals, lookupAssoc_groupInsert_ne m k v k2 h]

theorem entryRecord_ok_key (outputPath p : PPath) (n : String)
    (k : String) (r : VersionRecord)
    (h : entryRecord outputPath p n = Except.ok (k, r)) :
    majorMinorKey (stemOf n) = some k ∧ entryRec? outputPath p n = some r := by
  refine ⟨?_, by simp [entryRec?, h]⟩
  unfold entryRecord at h
  split at h
  · exact Except.noConfusion h
  split at h
  · exact Except.noConfusion h
  split at h
  · exact Except.noConfusion h
  injection h with h1
  injection h1 with hk hr
  subst hk
  assumption

theorem isPrefixOf_append_self (l t : List String) :
    List.isPrefixOf l (l ++ t) = true := by
  induction l with
  | nil => simp [List.isPrefixOf]
  | cons x xs ih => simp [List.isPrefixOf, ih]

theorem groupEntriesAux_ok (outputPath p : PPath) :
    ∀ (names : List String) (acc : List (String × List VersionRecord)),
    (∀ n ∈ names, isOkE (entryRecord outputPath p n) = true) →
    ∃ m, groupEntriesAux outputPath p acc names = Except.ok m ∧
      ∀ k, groupVals m k = groupVals acc k ++
        (names.filter (fun n => majorMinorKey (stemOf n) == some k)).filterMap
          (entryRec? outputPath p) := by
  intro names
  induction names with
  | nil =>
    intro acc h
    exact ⟨acc, rfl, fun k => by simp⟩
  | cons n rest ih =>
    intro acc h
    have hn := h n (List.mem_cons_self n rest)
    rcases hok : entryRecord outputPath p n with e | kr
    · rw [hok] at hn
      simp [isOkE] at hn
    rcases kr with ⟨k0, r0⟩
    have hkey := entryRecord_ok_key outputPath p n k0 r0 hok
    have hrest : ∀ n2 ∈ rest, isOkE (entryRecord outputPath p n2) = true :=
      fun n2 hm => h n2 (List.mem_cons_of_mem n hm)
    rcases ih (groupInsert acc k0 r0) hrest with ⟨m, hm, hvals⟩
    refine ⟨m, ?_, ?_⟩
    · simp only [groupEntriesAux, hok]
      exact hm
    · intro k
      rw [hvals k]
      by_cases hk : k0 = k
      · subst hk
        rw [groupVals_groupInsert_self]
        have hpred : (majorMinorKey (stemOf n) == some k0) = true := by
          rw [hkey.1]
          simp
        rw [List.filter_cons, hpred]
        simp only [if_true]
        rw [List.filterMap_cons, hkey.2]
        simp [List.append_assoc]
      · rw [groupVals_groupInsert_ne acc k0 r0 k (Ne.symm hk)]
        have hpred : (majorMinorKey (stemOf n) == some k) = false := by
          rw [hkey.1]
          simp [hk]
        rw [List.filter_cons, hpred]
        simp

/-- C6: when every listed entry has a well-formed stem, `index_func`
succeeds and its grouped index maps each Version Key exactly to the
records of the entries whose stem carries that major.minor key, in
discovery order, with no sorting applied (the group for any key is the
order-preserving filter of the listing). -/
theorem C6_grouping_insertion_order (fs : FS) (outputPath : PPath) (arg : String)
    (hrel : pyStartsWith arg "/" = false)
    (hchk : pyStartsWith (strOfP (pjoinArg outputPath arg))
      (strOfP outputPath) = true)
    (hex : fs.exists_ (strOfP (pjoinArg outputPath arg)) = true)
    (hwf : ∀ n ∈ fs.listdir (strOfP (pjoinArg outputPath arg)),
      (majorMinorKey (stemOf n)).isSome = true) :
    ∃ m, index_func fs outputPath arg = Except.ok m ∧
      ∀ k, groupVals m k =
        ((fs.listdir (strOfP (pjoinArg outputPath arg))).filter
          (fun n => majorMinorKey (stemOf n) == some k)).filterMap
          (entryRec? outputPath (pjoinArg outputPath arg)) := by
  have hargabs : (parsePath arg).absolute = false := hrel
  have hjoin : pjoinArg outputPath arg =
      ⟨outputPath.absolute, outputPath.parts ++ (parsePath arg).parts⟩ := by
    unfold pjoinArg pjoin
    rw [hargabs]
    simp
  have hok : ∀ n ∈ fs.listdir (strOfP (pjoinArg outputPath arg)),
      isOkE (entryRecord outputPath (pjoinArg outputPath arg) n) = true := by
    intro n hm
    have hkn := hwf n hm
    rcases hmk : majorMinorKey (stemOf n) with _ | k0
    · rw [hmk] at hkn
      simp at hkn
    have hev : ∃ q, extractVersionMeta (stemOf n) = some q := by
      unfold majorMinorKey at hmk
      cases hmmm : matchMMP (stemOf n).data with
      | none =>
        rw [hmmm] at hmk
        exact absurd hmk (by simp)
      | some trip =>
        rcases trip with ⟨A, B, C⟩
        refine ⟨(digitsToNat A, digitsToNat B, digitsToNat C,
          map_post_version_sort_to_number (stemOf n)), ?_⟩
        unfold extractVersionMeta
        rw [hmmm]
    rcases hev with ⟨q, hq⟩
    have hrelp : relativeParts outputPath
        (childPath (pjoinArg outputPath arg) n) =
        some ((parsePath arg).parts ++ [n]) := by
      rw [hjoin]
      unfold relativeParts childPath
      simp only []
      rw [List.append_assoc]
      rw [isPrefixOf_append_self outputPath.parts ((parsePath arg).parts ++ [n])]
      simp [List.drop_left]
    unfold entryRecord
    rw [hmk, hq, hrelp]
    simp [isOkE]
  rcases groupEntriesAux_ok outputPath (pjoinArg outputPath arg)
      (fs.listdir (strOfP (pjoinArg outputPath arg))) [] hok with ⟨m, hm, hv⟩
  refine ⟨m, ?_, ?_⟩
  · unfold index_func
    rw [hchk, hex]
    rw [if_neg (by simp)]
    rw [if_neg (by simp)]
    exact hm
  · intro k
    rw [hv k]
    simp [groupVals, lookupAssoc]

/-- C6 witness: a directory with three release notes groups 1.27.0,
1.27.1 under key 1.27 and 1.28.0 under key 1.28, in discovery order. -/
theorem C6_witness :
    ∃ m, index_func c6FS (parsePath "/docs") "notes" = Except.ok m ∧
      groupVals m "1.27" =
        [⟨1, 27, 0, 1, "1.27.0", "notes/1.27.0.md"⟩,
         ⟨1, 27, 1, 1, "1.27.1", "notes/1.27.1.md"⟩] ∧
      groupVals m "1.28" = [⟨1, 28, 0, 1, "1.28.0", "notes/1.28.0.md"⟩] := by
  obtain ⟨m, hm, hv⟩ := C6_grouping_insertion_order c6FS (parsePath "/docs")
    "notes" (by decide) (by decide) rfl (by decide)
  refine ⟨m, hm, ?_, ?_⟩
  · rw [hv "1.27"]
    decide
  · rw [hv "1.28"]
    decide

theorem renderAux_ok :
    ∀ (entries : List String) (acc : List String),
    (∀ n ∈ entries, suffixesOf n ≠ []) →
    renderAux acc entries =
      (acc.reverse ++ (entries.filter selectedTemplate).map truncAtMd, none) := by
  intro entries
  induction entries with
  | nil =>
    intro acc h
    simp [renderAux]
  | cons n rest ih =>
    intro acc h
    have hn := h n (List.mem_cons_self n rest)
    rcases hsuf : suffixesOf n with _ | ⟨s, ss⟩
    · exact absurd hsuf hn
    have hrest : ∀ n2 ∈ rest, suffixesOf n2 ≠ [] :=
      fun n2 hm => h n2 (List.mem_cons_of_mem n hm)
    simp only [renderAux, hsuf]
    by_cases hsel : (s == ".md" && !(pyStartsWith n ".")) = true
    · rw [if_pos hsel]
      rw [ih (truncAtMd n :: acc) hrest]
      have hselT : selectedTemplate n = true := by
        unfold selectedTemplate
        rw [hsuf]
        exact hsel
      rw [List.filter_cons, hselT]
      simp
    · rw [if_neg hsel]
      rw [ih acc hrest]
      have hselT : selectedTemplate n = false := by
        unfold selectedTemplate
        rw [hsuf]
        simp only [Bool.not_eq_true] at hsel
        exact hsel
      rw [List.filter_cons, hselT]
      simp

/-- C8 (amended): on a templates directory in which every entry name has
at least one suffix, the driver renders exactly the entries whose first
suffix is `.md` and whose name is not hidden, writing each under the
name truncated after the first `.md`; a hidden name is never selected;
but an entry without any suffix (such as `README` or `.gitignore`) makes
the loop raise an index error instead of being skipped. -/
theorem C8_template_selection (entries : List String)
    (h : ∀ n ∈ entries, suffixesOf n ≠ []) :
    render_templates entries =
      ((entries.filter selectedTemplate).map truncAtMd, none) ∧
    (∀ n : String, pyStartsWith n "." = true → selectedTemplate n = false) ∧
    truncAtMd "index.md.jinja" = "index.md" := by
  refine ⟨?_, ?_, by decide⟩
  · unfold render_templates
    rw [renderAux_ok entries [] h]
    simp
  · intro n hn
    unfold selectedTemplate
    rw [hn]
    simp

/-- C8 witness: the theorem applied to a directory holding a double
suffix template, a hidden template and a non-markdown file. -/
theorem C8_witness :
    render_templates ["index.md.jinja", ".hidden.md", "notes.txt", "readme.md"] =
      (["index.md", "readme.md"], none) := by
  have h := (C8_template_selection
    ["index.md.jinja", ".hidden.md", "notes.txt", "readme.md"] (by decide)).1
  rw [h]
  decide

/-- C8 counterexample: a directory entry without any suffix makes the
template loop raise `IndexError` on `tpl.suffixes[0]` before anything is
rendered, so the selected template `index.md.jinja` that follows it is
not rendered, contrary to the claim that exactly the `.md`-first-suffix
non-hidden entries are rendered. -/
theorem C8_no_suffix_cex :
    selectedTemplate "index.md.jinja" = true ∧
    render_templates ["README", "index.md.jinja"] =
      ([], some "IndexError: list index out of range") := by
  refine ⟨by decide, rfl⟩
